import Mathlib

/-
Verification of the goxel sparse voxel volume store, fingerprinting and
copy-on-write history, against the repository header (src/goxel.h).

The pure inline utilities (clamp, set_flag) are embedded directly from
the source.  The block store, volume, merge, history and key functions
are only declared in the header (their .c files are not part of the
sources given), so they are modelled from the specification text; each
such definition carries a doc comment starting with the words
Modelled from the spec.
-/

namespace Goxel

/-- Source goxel.h, macro clamp: min(max(x, a), b), on integers. -/
def clamp (x a b : Int) : Int := min (max x a) b

/-- Source goxel.h, static inline set_flag: v ? (*x |= flag) : (*x &= ~flag),
on 32-bit int bit patterns (the complement is taken within 32 bits). -/
def set_flag (x flag : Nat) (v : Bool) : Nat :=
  if v then x ||| flag else x &&& (flag ^^^ (2 ^ 32 - 1))

/-- A 4-channel RGBA voxel color; per the spec a cell with alpha 0 is
empty air. -/
structure Color where
  r : Nat
  g : Nat
  b : Nat
  a : Nat
deriving DecidableEq, Repr

/-- The empty (air) color. -/
def Color.empty : Color := ⟨0, 0, 0, 0⟩

/-- An integer world position or block coordinate. -/
structure Pos where
  x : Int
  y : Int
  z : Int
deriving DecidableEq, Repr

/-- Block coordinate containing a world position (block side is 16,
Euclidean division gives floor for the positive divisor). -/
def blockOf (p : Pos) : Pos := ⟨p.x / 16, p.y / 16, p.z / 16⟩

/-- Index of a world position inside its 16x16x16 block, in [0, 4096). -/
def cellIdx (p : Pos) : Nat :=
  (p.x % 16).toNat + 16 * (p.y % 16).toNat + 256 * (p.z % 16).toNat

/-- Zigzag embedding of the integers into the naturals. -/
def intToN (z : Int) : Nat := if 0 ≤ z then 2 * z.toNat else 2 * (-z).toNat - 1

/-- Inverse of the zigzag embedding. -/
def nToInt (n : Nat) : Int :=
  if n % 2 = 0 then ((n / 2 : Nat) : Int) else -(((n / 2 : Nat) : Int) + 1)

/-- Bijective encoding of a block coordinate as a natural number key. -/
def encPos (p : Pos) : Nat :=
  Nat.pair (intToN p.x) (Nat.pair (intToN p.y) (intToN p.z))

/-- Decoding of a natural number key back to a block coordinate. -/
def decPos (n : Nat) : Pos :=
  ⟨nToInt n.unpair.1, nToInt n.unpair.2.unpair.1, nToInt n.unpair.2.unpair.2⟩

/-- World position of cell index i inside block b. -/
def cellPos (b : Pos) (i : Nat) : Pos :=
  ⟨16 * b.x + ((i % 16 : Nat) : Int),
   16 * b.y + (((i / 16) % 16 : Nat) : Int),
   16 * b.z + ((i / 256 : Nat) : Int)⟩

/-- Association list with natural-number keys, kept sorted by key so that
structurally equal content gives structurally equal lists (the canonical
sparse form the spec requires). -/
abbrev SMap (ν : Type) := List (Nat × ν)

/-- Keys of the map are strictly increasing. -/
def KeysSorted {ν : Type} (s : SMap ν) : Prop :=
  List.Pairwise (fun a b => a.1 < b.1) s

instance {ν : Type} (s : SMap ν) : Decidable (KeysSorted s) := by
  unfold KeysSorted; infer_instance

/-- Keys of the map are pairwise distinct. -/
def NoDupKeys {ν : Type} (s : SMap ν) : Prop :=
  List.Pairwise (fun a b => a.1 ≠ b.1) s

/-- Lookup of the first entry with the given key. -/
def lookupS {ν : Type} : SMap ν → Nat → Option ν
  | [], _ => none
  | e :: t, q => if q = e.1 then some e.2 else lookupS t q

/-- Sorted insertion, replacing an existing entry with the same key. -/
def insertS {ν : Type} : SMap ν → Nat → ν → SMap ν
  | [], k, v => [(k, v)]
  | e :: t, k, v =>
    if k < e.1 then (k, v) :: e :: t
    else if k = e.1 then (k, v) :: t
    else e :: insertS t k v

/-- Removal of the first entry with the given key. -/
def eraseS {ν : Type} : SMap ν → Nat → SMap ν
  | [], _ => []
  | e :: t, k => if k = e.1 then t else e :: eraseS t k

/-- A block: sparse map from cell index (in [0, 4096)) to a non-empty
color.  Modelled from the spec: blocks are 16-cubed chunks of RGBA cells,
empty cells are absent (mesh.c and block.c are not in the sources). -/
abbrev Block := SMap Color

/-- A volume: sparse map from encoded block coordinate to a non-empty
block.  Modelled from the spec: a mapping from integer 3D block
coordinate to block, in canonical sparse form. -/
abbrev Volume := SMap Block

/-- Validity of a block: sorted, all cell indices in range, no stored
cell is empty air. -/
def BlockValid (b : Block) : Prop :=
  KeysSorted b ∧ ∀ e ∈ b, e.1 < 4096 ∧ e.2.a ≠ 0

/-- Validity of a volume: sorted, and every mapped block is non-empty
and valid (the canonical sparse form invariant of the spec). -/
def VolumeValid (v : Volume) : Prop :=
  KeysSorted v ∧ ∀ e ∈ v, e.2 ≠ [] ∧ BlockValid e.2

/-- The new, empty volume. -/
def vol_new : Volume := []

/-- Write one cell of a block: an empty color erases the cell, any other
color is stored. -/
def setCellB (b : Block) (i : Nat) (c : Color) : Block :=
  if c.a = 0 then eraseS b i else insertS b i c

/-- Modelled from the spec: point write into a volume (write of section
4.1, mesh_set_at in the original system, whose mesh.c is not in the
sources).  Locates or creates the containing block, updates the cell and
removes the mapping entry when the block empties entirely. -/
def vol_set (v : Volume) (p : Pos) (c : Color) : Volume :=
  let k := encPos (blockOf p)
  let b := (lookupS v k).getD []
  let b' := setCellB b (cellIdx p) c
  if b' = [] then eraseS v k else insertS v k b'

/-- Modelled from the spec: point read from a volume (read of section
4.1); returns the empty color when the containing block is absent. -/
def vol_get (v : Volume) (p : Pos) : Color :=
  match lookupS v (encPos (blockOf p)) with
  | none => Color.empty
  | some b => (lookupS b (cellIdx p)).getD Color.empty

/-- Apply a sequence of point writes to a volume. -/
def applyWrites (v : Volume) (ws : List (Pos × Color)) : Volume :=
  ws.foldl (fun v w => vol_set v w.1 w.2) v

/-- One multiply-add mixing step, truncated to 64 bits. -/
def mix64 (h x : Nat) : Nat := (h * 1099511628211 + x) % (2 ^ 64)

/-- Hash of one color. -/
def colorFP (c : Color) : Nat :=
  mix64 (mix64 (mix64 (mix64 17 c.r) c.g) c.b) c.a

/-- Hash of one populated block together with its coordinate key. -/
def blockFP (k : Nat) (b : Block) : Nat :=
  b.foldl (fun h e => mix64 (mix64 h e.1) (colorFP e.2))
    (mix64 14695981039346656037 k)

/-- Modelled from the spec: fingerprint_of a volume, combining the
coordinate and content hash of every populated block with exclusive or,
which is order independent (section 4.3). -/
def fingerprint_of (v : Volume) : Nat :=
  v.foldl (fun h e => h ^^^ blockFP e.1 e.2) 0

/-- The four merge modes of section 4.2. -/
inductive MergeMode
  | replace
  | add
  | sub
  | paint
deriving DecidableEq, Repr

/-- Modelled from the spec: per-voxel combination for the four merge
modes; add keeps the source voxel when it is non-empty, sub empties the
matching destination voxel, paint recolors only a matching non-empty
destination voxel. -/
def mergeCell : MergeMode → Color → Color → Color
  | .replace, _, s => s
  | .add, d, s => if s.a = 0 then d else s
  | .sub, d, s => if s.a = 0 then d else Color.empty
  | .paint, d, s => if s.a ≠ 0 ∧ d.a ≠ 0 then s else d

/-- All populated voxels of a volume, with world positions. -/
def volToList (v : Volume) : List (Pos × Color) :=
  v.foldr
    (fun e acc => (e.2.map fun ce => (cellPos (decPos e.1) ce.1, ce.2)) ++ acc)
    []

/-- Rebuild a volume with every voxel position transformed. -/
def remapVol (t : Pos → Pos) (src : Volume) : Volume :=
  (volToList src).foldl (fun acc e => vol_set acc (t e.1) e.2) vol_new

/-- Modelled from the spec: merge_into(dst, src, transform, mode) of
section 4.2 (mesh_utils.c is not in the sources): composes src, carried
through the transform, into dst under the given mode, by rewriting every
voxel position populated on either side with the per-voxel merge of the
two colors there. -/
def merge_into (dst src : Volume) (t : Pos → Pos) (mode : MergeMode) :
    Volume :=
  let s := remapVol t src
  ((volToList dst).map Prod.fst ++ (volToList s).map Prod.fst).foldl
    (fun acc p => vol_set acc p (mergeCell mode (vol_get dst p) (vol_get s p)))
    dst

/-- Block payload in the reference-counted store: cell index to color. -/
abbrev BlockData := Nat → Color

/-- The all-empty block payload. -/
def emptyBD : BlockData := fun _ => Color.empty

/-- Whether every cell of a block payload is empty air. -/
def bdEmptyB (bd : BlockData) : Bool :=
  (List.range 4096).all fun i => (bd i).a == 0

/-- Modelled from the spec: the block store that shares blocks by
reference count across volumes and snapshots (section 3; block.c is not
in the sources).  Blocks live in a heap addressed by identifier. -/
structure Store where
  blocks : Nat → BlockData
  refc : Nat → Nat
  nextId : Nat

/-- The initial store: no block allocated. -/
def initStore : Store := ⟨fun _ => emptyBD, fun _ => 0, 0⟩

/-- A volume in the store model: association of encoded block coordinate
to block identifier. -/
abbrev HVol := List (Nat × Nat)

/-- Modelled from the spec: the write path of section 4.1 over the
reference-counted store.  A block referenced at least twice is cloned
before mutation (copy on write); a write that empties the block entirely
removes the mapping entry and releases the reference. -/
def hWrite (st : Store) (v : HVol) (p : Pos) (c : Color) : Store × HVol :=
  let k := encPos (blockOf p)
  match lookupS v k with
  | none =>
    if c.a = 0 then (st, v)
    else
      let j := st.nextId
      (⟨Function.update st.blocks j (Function.update emptyBD (cellIdx p) c),
        Function.update st.refc j 1, j + 1⟩,
       (k, j) :: v)
  | some i =>
    let nd := Function.update (st.blocks i) (cellIdx p) c
    if bdEmptyB nd then
      ({ st with refc := Function.update st.refc i (st.refc i - 1) },
       eraseS v k)
    else if 2 ≤ st.refc i then
      let j := st.nextId
      (⟨Function.update st.blocks j nd,
        Function.update (Function.update st.refc i (st.refc i - 1)) j 1,
        j + 1⟩,
       (k, j) :: eraseS v k)
    else ({ st with blocks := Function.update st.blocks i nd }, v)

/-- Modelled from the spec: point read over the reference-counted
store. -/
def readH (st : Store) (v : HVol) (p : Pos) : Color :=
  match lookupS v (encPos (blockOf p)) with
  | none => Color.empty
  | some i => st.blocks i (cellIdx p)

/-- Number of references a volume holds on a given block identifier. -/
def refsIn : HVol → Nat → Nat
  | [], _ => 0
  | e :: t, id => (if e.2 = id then 1 else 0) + refsIn t id

/-- Modelled from the spec: snapshotting a volume shares its blocks, so
every block it references gains one reference count. -/
def snapStore (st : Store) (v : HVol) : Store :=
  { st with refc := fun id => st.refc id + refsIn v id }

/-- Invariant tying a snapshot S to the mutated state: the reference
count of a block covers the references from the live volume and the
snapshot together, blocks referenced by the snapshot still hold their
snapshot-time payload, every referenced or counted block is below the
allocation cursor, and the live mapping has no duplicate coordinate. -/
structure HInv (frozen : Store) (S : HVol) (st : Store) (A : HVol) : Prop where
  counts : ∀ id, refsIn A id + refsIn S id ≤ st.refc id
  frozenS : ∀ id, refsIn S id ≠ 0 → st.blocks id = frozen.blocks id
  fresh : ∀ id,
    (refsIn A id ≠ 0 ∨ refsIn S id ≠ 0 ∨ st.refc id ≠ 0) → id < st.nextId
  nodup : NoDupKeys A

/-- Apply a sequence of writes over the store model. -/
def applyH (st : Store) (v : HVol) (ws : List (Pos × Color)) : Store × HVol :=
  ws.foldl (fun s w => hWrite s.1 s.2 w.1 w.2) (st, v)

/-- A volume built from the empty store by a sequence of writes. -/
def buildA (ws : List (Pos × Color)) : Store × HVol := applyH initStore [] ws

/-- The store right after snapshotting the built volume. -/
def snappedStore (ws : List (Pos × Color)) : Store :=
  snapStore (buildA ws).1 (buildA ws).2

/-- Representable coordinate range of the original system: every world
coordinate fits a 32-bit int. -/
def inRange (p : Pos) : Prop :=
  -(2 ^ 31) ≤ p.x ∧ p.x < 2 ^ 31 ∧ -(2 ^ 31) ≤ p.y ∧ p.y < 2 ^ 31 ∧
    -(2 ^ 31) ≤ p.z ∧ p.z < 2 ^ 31

instance (p : Pos) : Decidable (inRange p) := by
  unfold inRange; infer_instance

/-- Write failure kinds of section 7. -/
inductive WErr
  | outOfRange
  | allocFailed
deriving DecidableEq, Repr

/-- Modelled from the spec: the fallible write of sections 4.1 and 7.
An out-of-range coordinate is rejected before anything happens; when the
write needs a fresh block (creation or clone of a shared block) the
allocation is attempted before any mutation, so an allocation failure
aborts with the store and volume untouched (clone-then-swap ordering). -/
def hWriteE (alloc : Bool) (st : Store) (v : HVol) (p : Pos) (c : Color) :
    Except WErr (Store × HVol) :=
  if inRange p then
    match lookupS v (encPos (blockOf p)) with
    | none =>
      if c.a = 0 then .ok (st, v)
      else if alloc then .ok (hWrite st v p c)
      else .error .allocFailed
    | some i =>
      let nd := Function.update (st.blocks i) (cellIdx p) c
      if bdEmptyB nd then .ok (hWrite st v p c)
      else if 2 ≤ st.refc i then
        if alloc then .ok (hWrite st v p c) else .error .allocFailed
      else .ok (hWrite st v p c)
  else .error .outOfRange

/-- The state a caller holds after a fallible write: on failure the
pre-operation store and volume are kept. -/
def hWriteTotal (alloc : Bool) (st : Store) (v : HVol) (p : Pos) (c : Color) :
    Store × HVol :=
  match hWriteE alloc st v p c with
  | .ok r => r
  | .error _ => (st, v)

/-- Modelled from the spec: a document with its undo and redo chains
(section 4.5; image.c is not in the sources).  The chain of snapshot
nodes is kept as the nodes strictly before the current one, the current
node content, and the nodes after it; scene is the working scene.  A new
document starts with one node holding its initial scene, so that the
chain reconstructs every prior document state. -/
structure Image (S : Type) where
  scene : S
  past : List S
  cur : S
  future : List S
deriving DecidableEq, Repr

/-- Modelled from the spec: a fresh document whose initial state is on
the history chain. -/
def image_new {S : Type} (s : S) : Image S := ⟨s, [], s, []⟩

/-- Modelled from the spec: push creates a new node whose content is the
current scene and truncates any forward chain. -/
def image_history_push {S : Type} (img : Image S) : Image S :=
  ⟨img.scene, img.cur :: img.past, img.scene, []⟩

/-- Modelled from the spec: undo makes the previous node current and
returns its scene; with no previous node it is a no-op. -/
def image_undo {S : Type} (img : Image S) : Image S :=
  match img.past with
  | [] => img
  | p :: ps => ⟨p, ps, p, img.cur :: img.future⟩

/-- Modelled from the spec: redo, symmetric to undo on the forward
link. -/
def image_redo {S : Type} (img : Image S) : Image S :=
  match img.future with
  | [] => img
  | f :: fs => ⟨f, img.cur :: img.past, f, fs⟩

/-- Modelled from the spec: image_get_key is the scene fingerprint of
the document, for a given scene fingerprint function. -/
def image_get_key {S : Type} (key : S → Nat) (img : Image S) : Nat :=
  key img.scene

/-- One completed interactive edit: mutate the working scene, then push
(section 4.5: push is called at the end of a completed edit). -/
def editPush {S : Type} (img : Image S) (e : S → S) : Image S :=
  image_history_push { img with scene := e img.scene }

/-- Run a sequence of edits, each followed by a push. -/
def runEdits {S : Type} (img : Image S) (es : List (S → S)) : Image S :=
  es.foldl editPush img

/-- Iterated undo. -/
def undoN {S : Type} (img : Image S) : Nat → Image S
  | 0 => img
  | n + 1 => undoN (image_undo img) n

/-- Scene fingerprints observed while redoing a given number of times. -/
def redoTrace {S : Type} (key : S → Nat) (img : Image S) : Nat → List Nat
  | 0 => []
  | n + 1 =>
    image_get_key key (image_redo img) :: redoTrace key (image_redo img) n

/-- Scene fingerprints observed on the forward pass, after each edit and
its push. -/
def forwardObs {S : Type} (key : S → Nat) (img : Image S) :
    List (S → S) → List Nat
  | [] => []
  | e :: es =>
    image_get_key key (editPush img e) :: forwardObs key (editPush img e) es

/-- Scene resulting from folding a list of edits over a scene. -/
def endScene {S : Type} (s : S) (es : List (S → S)) : S :=
  es.foldl (fun s e => e s) s

/-- Node contents strictly before the current node after running the
edits from scene s (most recent first). -/
def pastAfter {S : Type} (s : S) : List (S → S) → List S
  | [] => []
  | e :: es => pastAfter (e s) es ++ [s]

/-- The successive scenes produced by a list of edits. -/
def scenesList {S : Type} (s : S) : List (S → S) → List S
  | [] => []
  | e :: es => e s :: scenesList (e s) es

/-- Walk an undo chain to its bottom, returning the bottom node content
and the list of node contents that pile up as the forward chain. -/
def unwind {S : Type} (c : S) : List S → S × List S
  | [] => (c, [])
  | x :: xs =>
    let r := unwind x xs
    (r.1, r.2 ++ [c])

/-- The camera structure of goxel.h (next and prev list pointers left
out): name bytes, projection kind, position scalars as 32-bit float bit
patterns, and the two cached matrices that are auto computed from the
rest. -/
structure Camera where
  name : List (Fin 256)
  ortho : Bool
  dist : Fin (2 ^ 32)
  rot0 : Fin (2 ^ 32)
  rot1 : Fin (2 ^ 32)
  rot2 : Fin (2 ^ 32)
  rot3 : Fin (2 ^ 32)
  ofs0 : Fin (2 ^ 32)
  ofs1 : Fin (2 ^ 32)
  ofs2 : Fin (2 ^ 32)
  fovy : Fin (2 ^ 32)
  aspect : Fin (2 ^ 32)
  view_mat : List (Fin (2 ^ 32))
  proj_mat : List (Fin (2 ^ 32))
deriving DecidableEq

/-- Observable camera content: every field of goxel.h's camera except
the two auto-computed matrices (and the list pointers). -/
def obsEq (c1 c2 : Camera) : Prop :=
  c1.name = c2.name ∧ c1.ortho = c2.ortho ∧ c1.dist = c2.dist ∧
    c1.rot0 = c2.rot0 ∧ c1.rot1 = c2.rot1 ∧ c1.rot2 = c2.rot2 ∧
    c1.rot3 = c2.rot3 ∧ c1.ofs0 = c2.ofs0 ∧ c1.ofs1 = c2.ofs1 ∧
    c1.ofs2 = c2.ofs2 ∧ c1.fovy = c2.fovy ∧ c1.aspect = c2.aspect

/-- Modelled from the spec: camera_get_key derives a 64-bit value from
the observable camera content (camera.c is not in the sources); the
cached matrices are functions of the rest and are not folded in. -/
def camera_get_key (c : Camera) : Nat :=
  let h0 := (c.name.foldl (fun h x => mix64 h x.val) 1469598103934665603)
  let h1 := mix64 h0 (if c.ortho then 1 else 0)
  let h2 := mix64 (mix64 (mix64 (mix64 (mix64 h1 c.dist.val) c.rot0.val)
    c.rot1.val) c.rot2.val) c.rot3.val
  mix64 (mix64 (mix64 (mix64 (mix64 h2 c.ofs0.val) c.ofs1.val) c.ofs2.val)
    c.fovy.val) c.aspect.val

/-- A camera whose three leading position scalars encode a natural
number in base 2^32; used to exhibit distinct observable contents. -/
def camOfNat (n : Nat) : Camera where
  name := []
  ortho := false
  dist := ⟨n % 2 ^ 32, Nat.mod_lt _ (by norm_num)⟩
  rot0 := ⟨n / 2 ^ 32 % 2 ^ 32, Nat.mod_lt _ (by norm_num)⟩
  rot1 := ⟨n / 2 ^ 32 / 2 ^ 32 % 2 ^ 32, Nat.mod_lt _ (by norm_num)⟩
  rot2 := ⟨0, by norm_num⟩
  rot3 := ⟨0, by norm_num⟩
  ofs0 := ⟨0, by norm_num⟩
  ofs1 := ⟨0, by norm_num⟩
  ofs2 := ⟨0, by norm_num⟩
  fovy := ⟨0, by norm_num⟩
  aspect := ⟨0, by norm_num⟩
  view_mat := []
  proj_mat := []

theorem cellIdx_lt (p : Pos) : cellIdx p < 4096 := by
  unfold cellIdx
  omega

theorem blockOf_cellPos (b : Pos) (i : Nat) (h : i < 4096) :
    blockOf (cellPos b i) = b := by
  unfold blockOf cellPos
  cases b
  simp only [Pos.mk.injEq]
  omega

theorem cellIdx_cellPos (b : Pos) (i : Nat) (h : i < 4096) :
    cellIdx (cellPos b i) = i := by
  unfold cellIdx cellPos
  cases b
  simp only []
  omega

theorem nToInt_intToN (z : Int) : nToInt (intToN z) = z := by
  unfold nToInt intToN
  split <;> split <;> omega

theorem intToN_nToInt (n : Nat) : intToN (nToInt n) = n := by
  unfold nToInt intToN
  split <;> split <;> omega

theorem decPos_encPos (p : Pos) : decPos (encPos p) = p := by
  unfold decPos encPos
  cases p
  simp [Nat.unpair_pair, nToInt_intToN]

theorem encPos_decPos (n : Nat) : encPos (decPos n) = n := by
  unfold decPos encPos
  simp only [intToN_nToInt]
  rw [Nat.pair_unpair, Nat.pair_unpair]

theorem lookupS_cons {ν : Type} (e : Nat × ν) (t : SMap ν) (q : Nat) :
    lookupS (e :: t) q = if q = e.1 then some e.2 else lookupS t q := rfl

theorem lookupS_eq_none_of_forall {ν : Type} {s : SMap ν} {q : Nat}
    (h : ∀ e ∈ s, e.1 ≠ q) : lookupS s q = none := by
  induction s with
  | nil => rfl
  | cons e t ih =>
    have he : ¬ q = e.1 := fun hq => h e (List.mem_cons_self e t) hq.symm
    rw [lookupS_cons, if_neg he]
    exact ih fun e' he' => h e' (List.mem_cons_of_mem e he')

theorem forall_ne_of_lookupS_eq_none {ν : Type} {s : SMap ν} {q : Nat}
    (h : lookupS s q = none) : ∀ e ∈ s, e.1 ≠ q := by
  induction s with
  | nil => intro e he; cases he
  | cons e t ih =>
    intro e' he'
    by_cases hq : q = e.1
    · rw [lookupS_cons, if_pos hq] at h; cases h
    · rw [lookupS_cons, if_neg hq] at h
      rcases List.mem_cons.mp he' with h1 | h1
      · subst h1; exact fun hc => hq hc.symm
      · exact ih h e' h1

theorem lookupS_some_mem {ν : Type} {s : SMap ν} {q : Nat} {x : ν}
    (h : lookupS s q = some x) : (q, x) ∈ s := by
  induction s with
  | nil => cases h
  | cons e t ih =>
    by_cases hq : q = e.1
    · rw [lookupS_cons, if_pos hq] at h
      injection h with h2
      exact List.mem_cons.mpr (Or.inl (Prod.ext hq h2.symm))
    · rw [lookupS_cons, if_neg hq] at h
      exact List.mem_cons_of_mem e (ih h)

theorem lookupS_insertS {ν : Type} (s : SMap ν) (k : Nat) (v : ν) (q : Nat) :
    lookupS (insertS s k v) q = if q = k then some v else lookupS s q := by
  induction s with
  | nil => simp [insertS, lookupS]
  | cons e t ih =>
    by_cases h1 : k < e.1
    · simp only [insertS, if_pos h1]
      rw [lookupS_cons]
    · by_cases h2 : k = e.1
      · simp only [insertS, if_neg h1, if_pos h2]
        rw [lookupS_cons, lookupS_cons]
        by_cases hq : q = k
        · simp [hq]
        · rw [if_neg hq, if_neg hq, if_neg (show ¬ q = e.1 from h2 ▸ hq)]
      · simp only [insertS, if_neg h1, if_neg h2]
        rw [lookupS_cons, lookupS_cons, ih]
        by_cases hq : q = e.1
        · have hqk : ¬ q = k := fun hc => h2 (by omega)
          rw [if_pos hq, if_neg hqk, if_pos hq]
        · rw [if_neg hq]
          by_cases hqk : q = k
          · rw [if_pos hqk, if_pos hqk]
          · rw [if_neg hqk, if_neg hqk, if_neg hq]

theorem mem_insertS {ν : Type} {s : SMap ν} {k : Nat} {v : ν} {e : Nat × ν}
    (h : e ∈ insertS s k v) : e = (k, v) ∨ e ∈ s := by
  induction s with
  | nil => simpa [insertS] using h
  | cons hd t ih =>
    by_cases h1 : k < hd.1
    · simp only [insertS, if_pos h1] at h
      simpa [List.mem_cons, or_assoc] using h
    · by_cases h2 : k = hd.1
      · simp only [insertS, if_neg h1, if_pos h2] at h
        rcases List.mem_cons.mp h with h3 | h3
        · exact Or.inl h3
        · exact Or.inr (List.mem_cons_of_mem hd h3)
      · simp only [insertS, if_neg h1, if_neg h2] at h
        rcases List.mem_cons.mp h with h3 | h3
        · exact Or.inr (h3 ▸ List.mem_cons_self hd t)
        · rcases ih h3 with h4 | h4
          · exact Or.inl h4
          · exact Or.inr (List.mem_cons_of_mem hd h4)

theorem keysSorted_insertS {ν : Type} {s : SMap ν} (hs : KeysSorted s)
    (k : Nat) (v : ν) : KeysSorted (insertS s k v) := by
  induction s with
  | nil => simp [insertS, KeysSorted]
  | cons hd t ih =>
    rcases List.pairwise_cons.mp hs with ⟨hhd, ht⟩
    by_cases h1 : k < hd.1
    · simp only [insertS, if_pos h1]
      refine List.pairwise_cons.mpr ⟨?_, hs⟩
      intro e he
      rcases List.mem_cons.mp he with h3 | h3
      · subst h3; exact h1
      · have := hhd e h3; omega
    · by_cases h2 : k = hd.1
      · simp only [insertS, if_neg h1, if_pos h2]
        refine List.pairwise_cons.mpr ⟨?_, ht⟩
        intro e he
        have := hhd e he
        omega
      · simp only [insertS, if_neg h1, if_neg h2]
        refine List.pairwise_cons.mpr ⟨?_, ih ht⟩
        intro e he
        rcases mem_insertS he with h3 | h3
        · subst h3; omega
        · exact hhd e h3

theorem eraseS_sublist {ν : Type} (s : SMap ν) (k : Nat) :
    List.Sublist (eraseS s k) s := by
  induction s with
  | nil => simp [eraseS]
  | cons hd t ih =>
    by_cases h : k = hd.1
    · simp only [eraseS, if_pos h]
      exact List.sublist_cons_self hd t
    · simp only [eraseS, if_neg h]
      exact List.Sublist.cons₂ hd ih

theorem keysSorted_eraseS {ν : Type} {s : SMap ν} (hs : KeysSorted s)
    (k : Nat) : KeysSorted (eraseS s k) :=
  List.Pairwise.sublist (eraseS_sublist s k) hs

theorem mem_eraseS {ν : Type} {s : SMap ν} {k : Nat} {e : Nat × ν}
    (h : e ∈ eraseS s k) : e ∈ s :=
  (eraseS_sublist s k).subset h

theorem lookupS_eraseS {ν : Type} {s : SMap ν} (hnd : NoDupKeys s)
    (k q : Nat) :
    lookupS (eraseS s k) q = if q = k then none else lookupS s q := by
  induction s with
  | nil => simp [eraseS, lookupS]
  | cons hd t ih =>
    rcases List.pairwise_cons.mp hnd with ⟨hhd, ht⟩
    by_cases h1 : k = hd.1
    · simp only [eraseS, if_pos h1]
      by_cases hq : q = k
      · rw [if_pos hq]
        exact lookupS_eq_none_of_forall fun e he hc => hhd e he (by omega)
      · rw [if_neg hq, lookupS_cons, if_neg (show ¬ q = hd.1 from h1 ▸ hq)]
    · simp only [eraseS, if_neg h1]
      by_cases hq : q = hd.1
      · have hqk : ¬ q = k := fun hc => h1 (by omega)
        rw [if_neg hqk, lookupS_cons, if_pos hq, lookupS_cons, if_pos hq]
      · rw [lookupS_cons, if_neg hq, ih ht, lookupS_cons]
        by_cases hqk : q = k
        · rw [if_pos hqk, if_pos hqk]
        · rw [if_neg hqk, if_neg hqk, if_neg hq]

theorem lookupS_none_of_forall_lt {ν : Type} {s : SMap ν} {q : Nat}
    (h : ∀ e ∈ s, q < e.1) : lookupS s q = none :=
  lookupS_eq_none_of_forall fun e he => Nat.ne_of_gt (h e he)

theorem smap_ext {ν : Type} :
    ∀ (s1 s2 : SMap ν), KeysSorted s1 → KeysSorted s2 →
      (∀ q, lookupS s1 q = lookupS s2 q) → s1 = s2 := by
  intro s1
  induction s1 with
  | nil =>
    intro s2 _ _ h
    cases s2 with
    | nil => rfl
    | cons e2 t2 => simpa [lookupS] using h e2.1
  | cons e1 t1 ih =>
    intro s2 hs1 hs2 h
    cases s2 with
    | nil => simpa [lookupS] using h e1.1
    | cons e2 t2 =>
      rcases List.pairwise_cons.mp hs1 with ⟨hhd1, ht1⟩
      rcases List.pairwise_cons.mp hs2 with ⟨hhd2, ht2⟩
      have h1l : lookupS (e1 :: t1) e1.1 = some e1.2 := by
        rw [lookupS_cons]; simp
      have h2l : lookupS (e2 :: t2) e2.1 = some e2.2 := by
        rw [lookupS_cons]; simp
      have hk12 : ¬ e1.1 < e2.1 := by
        intro hlt
        have hn : lookupS (e2 :: t2) e1.1 = none :=
          lookupS_none_of_forall_lt (by
            intro e he
            rcases List.mem_cons.mp he with h3 | h3
            · subst h3; exact hlt
            · have := hhd2 e h3; omega)
        cases h1l.symm.trans ((h e1.1).trans hn)
      have hk21 : ¬ e2.1 < e1.1 := by
        intro hlt
        have hn : lookupS (e1 :: t1) e2.1 = none :=
          lookupS_none_of_forall_lt (by
            intro e he
            rcases List.mem_cons.mp he with h3 | h3
            · subst h3; exact hlt
            · have := hhd1 e h3; omega)
        cases hn.symm.trans ((h e2.1).trans h2l)
      have hk : e1.1 = e2.1 := by omega
      have hv : some e1.2 = some e2.2 :=
        h1l.symm.trans ((h e1.1).trans (by rw [hk]; exact h2l))
      injection hv with hv2
      have he : e1 = e2 := Prod.ext hk hv2
      have htl : t1 = t2 := by
        refine ih t2 ht1 ht2 ?_
        intro q
        by_cases hq : q = e1.1
        · rw [lookupS_none_of_forall_lt (fun e hm => by
              rw [hq]; exact hhd1 e hm),
            lookupS_none_of_forall_lt (fun e hm => by
              rw [hq, hk]; exact hhd2 e hm)]
        · have hq2 : ¬ q = e2.1 := hk ▸ hq
          have := h q
          rwa [lookupS_cons, if_neg hq, lookupS_cons, if_neg hq2] at this
      rw [he, htl]

/-- C10: with a not above b, the goxel clamp macro returns a value in
the interval from a to b, returns x itself whenever x already lies in
the interval, and is idempotent. -/
theorem clamp_spec (x a b : Int) (h : a ≤ b) :
    (a ≤ clamp x a b ∧ clamp x a b ≤ b) ∧
      (a ≤ x → x ≤ b → clamp x a b = x) ∧
      clamp (clamp x a b) a b = clamp x a b := by
  unfold clamp
  omega

theorem clamp_spec_witness :
    ((-2 : Int) ≤ clamp 7 (-2) 5 ∧ clamp 7 (-2) 5 ≤ 5) ∧
      ((-2 : Int) ≤ 3 → (3 : Int) ≤ 5 → clamp 3 (-2) 5 = 3) ∧
      clamp (clamp 7 (-2) 5) (-2) 5 = clamp 7 (-2) 5 := by
  refine ⟨(clamp_spec 7 (-2) 5 (by decide)).1, ?_, ?_⟩
  · exact fun _ _ => (clamp_spec 3 (-2) 5 (by decide)).2.1 (by decide) (by decide)
  · exact (clamp_spec 7 (-2) 5 (by decide)).2.2

/-- C9: set_flag sets exactly the bits selected by flag to v and leaves
every other bit of x unchanged. -/
theorem set_flag_spec (x flag : Nat) (v : Bool) (i : Nat)
    (hx : x < 2 ^ 32) (hf : flag < 2 ^ 32) :
    Nat.testBit (set_flag x flag v) i =
      (if Nat.testBit flag i then v else Nat.testBit x i) := by
  cases v with
  | true =>
    have hs : set_flag x flag true = x ||| flag := by simp [set_flag]
    rw [hs, Nat.testBit_or]
    cases hfi : Nat.testBit flag i <;> simp [hfi]
  | false =>
    have hs : set_flag x flag false = x &&& (flag ^^^ (2 ^ 32 - 1)) := by
      simp [set_flag]
    rw [hs, Nat.testBit_and, Nat.testBit_xor, Nat.testBit_two_pow_sub_one]
    by_cases hi : i < 32
    · cases hfi : Nat.testBit flag i <;> simp [hfi, hi]
    · have h2 : (2 : Nat) ^ 32 ≤ 2 ^ i :=
        Nat.pow_le_pow_right (by omega) (by omega)
      have hxi : Nat.testBit x i = false :=
        Nat.testBit_lt_two_pow (by omega)
      have hfi : Nat.testBit flag i = false :=
        Nat.testBit_lt_two_pow (by omega)
      simp [hxi, hfi, hi]

theorem set_flag_spec_witness :
    Nat.testBit (set_flag 12 10 false) 1 =
      (if Nat.testBit 10 1 then false else Nat.testBit 12 1) :=
  set_flag_spec 12 10 false 1 (by decide) (by decide)

theorem blockValid_nil : BlockValid [] :=
  ⟨List.Pairwise.nil, fun e he => absurd he (List.not_mem_nil e)⟩

theorem blockValid_setCellB {b : Block} (hb : BlockValid b) {i : Nat}
    (hi : i < 4096) (c : Color) : BlockValid (setCellB b i c) := by
  rcases hb with ⟨hs, hm⟩
  by_cases hc : c.a = 0
  · simp only [setCellB, if_pos hc]
    exact ⟨keysSorted_eraseS hs i, fun e he => hm e (mem_eraseS he)⟩
  · simp only [setCellB, if_neg hc]
    refine ⟨keysSorted_insertS hs i c, ?_⟩
    intro e he
    rcases mem_insertS he with h1 | h1
    · subst h1; exact ⟨hi, hc⟩
    · exact hm e h1

theorem volumeValid_vol_set {v : Volume} (hv : VolumeValid v) (p : Pos)
    (c : Color) : VolumeValid (vol_set v p c) := by
  rcases hv with ⟨hs, hm⟩
  have hblock : BlockValid ((lookupS v (encPos (blockOf p))).getD []) := by
    cases hl : lookupS v (encPos (blockOf p)) with
    | none => exact blockValid_nil
    | some b => exact (hm _ (lookupS_some_mem hl)).2
  have hb' := blockValid_setCellB hblock (cellIdx_lt p) c
  simp only [vol_set]
  by_cases he :
      setCellB ((lookupS v (encPos (blockOf p))).getD []) (cellIdx p) c = []
  · rw [if_pos he]
    exact ⟨keysSorted_eraseS hs _, fun e hm2 => hm e (mem_eraseS hm2)⟩
  · rw [if_neg he]
    refine ⟨keysSorted_insertS hs _ _, ?_⟩
    intro e hm2
    rcases mem_insertS hm2 with h1 | h1
    · subst h1; exact ⟨he, hb'⟩
    · exact hm e h1

theorem volumeValid_vol_new : VolumeValid vol_new :=
  ⟨List.Pairwise.nil, fun e he => absurd he (List.not_mem_nil e)⟩

theorem volumeValid_applyWrites (ws : List (Pos × Color)) :
    ∀ v : Volume, VolumeValid v → VolumeValid (applyWrites v ws) := by
  induction ws with
  | nil => intro v hv; exact hv
  | cons w t ih => intro v hv; exact ih _ (volumeValid_vol_set hv w.1 w.2)

theorem vol_get_cellPos_none (v : Volume) (k i : Nat) (hi : i < 4096)
    (hl : lookupS v k = none) : vol_get v (cellPos (decPos k) i) = Color.empty := by
  unfold vol_get
  rw [blockOf_cellPos _ _ hi, encPos_decPos, cellIdx_cellPos _ _ hi, hl]

theorem vol_get_cellPos_some (v : Volume) (k i : Nat) (hi : i < 4096)
    {b : Block} (hl : lookupS v k = some b) :
    vol_get v (cellPos (decPos k) i) = (lookupS b i).getD Color.empty := by
  unfold vol_get
  rw [blockOf_cellPos _ _ hi, encPos_decPos, cellIdx_cellPos _ _ hi, hl]

theorem exists_cell_of_lookup {v : Volume} (hv : VolumeValid v) {k : Nat}
    {b : Block} (hl : lookupS v k = some b) :
    ∃ i c, lookupS b i = some c ∧ i < 4096 ∧ c.a ≠ 0 := by
  rcases hv with ⟨_, hm⟩
  rcases hm _ (lookupS_some_mem hl) with ⟨hne, _, hbm⟩
  cases b with
  | nil => exact absurd rfl hne
  | cons e t =>
    rcases hbm e (List.mem_cons_self e t) with ⟨h1, h2⟩
    exact ⟨e.1, e.2, by rw [lookupS_cons, if_pos rfl], h1, h2⟩

theorem vol_ext {v1 v2 : Volume} (h1 : VolumeValid v1) (h2 : VolumeValid v2)
    (h : ∀ p, vol_get v1 p = vol_get v2 p) : v1 = v2 := by
  refine smap_ext v1 v2 h1.1 h2.1 ?_
  intro k
  cases hl1 : lookupS v1 k with
  | none =>
    cases hl2 : lookupS v2 k with
    | none => rfl
    | some b2 =>
      obtain ⟨i, c, hbi, hilt, hca⟩ := exists_cell_of_lookup h2 hl2
      have hp := h (cellPos (decPos k) i)
      rw [vol_get_cellPos_none v1 k i hilt hl1,
        vol_get_cellPos_some v2 k i hilt hl2, hbi] at hp
      exact absurd (congrArg Color.a hp.symm) hca
  | some b1 =>
    cases hl2 : lookupS v2 k with
    | none =>
      obtain ⟨i, c, hbi, hilt, hca⟩ := exists_cell_of_lookup h1 hl1
      have hp := h (cellPos (decPos k) i)
      rw [vol_get_cellPos_some v1 k i hilt hl1,
        vol_get_cellPos_none v2 k i hilt hl2, hbi] at hp
      exact absurd (congrArg Color.a hp) hca
    | some b2 =>
      have hbv1 : BlockValid b1 := (h1.2 _ (lookupS_some_mem hl1)).2
      have hbv2 : BlockValid b2 := (h2.2 _ (lookupS_some_mem hl2)).2
      have hb : b1 = b2 := by
        refine smap_ext b1 b2 hbv1.1 hbv2.1 ?_
        intro q
        by_cases hq : q < 4096
        · have hp := h (cellPos (decPos k) q)
          rw [vol_get_cellPos_some v1 k q hq hl1,
            vol_get_cellPos_some v2 k q hq hl2] at hp
          cases hc1 : lookupS b1 q with
          | none =>
            cases hc2 : lookupS b2 q with
            | none => rfl
            | some c2 =>
              rw [hc1, hc2] at hp
              have hca2 := (hbv2.2 _ (lookupS_some_mem hc2)).2
              exact absurd (congrArg Color.a hp).symm hca2
          | some c1 =>
            cases hc2 : lookupS b2 q with
            | none =>
              rw [hc1, hc2] at hp
              have hca1 := (hbv1.2 _ (lookupS_some_mem hc1)).2
              exact absurd (congrArg Color.a hp) hca1
            | some c2 =>
              rw [hc1, hc2] at hp
              simp only [Option.getD_some] at hp
              rw [hp]
        · rw [lookupS_eq_none_of_forall
              (fun e he => by have := (hbv1.2 e he).1; omega),
            lookupS_eq_none_of_forall
              (fun e he => by have := (hbv2.2 e he).1; omega)]
      rw [hb]

/-- C2: after any sequence of writes from the empty volume, a block all
of whose 4096 cells read empty is absent from the mapping, and two write
sequences producing identical voxel content give equal fingerprints. -/
theorem sparseness_canonicality (ws ws2 : List (Pos × Color)) (bc : Pos) :
    ((∀ i : Fin 4096,
        vol_get (applyWrites vol_new ws) (cellPos bc i.val) = Color.empty) →
      lookupS (applyWrites vol_new ws) (encPos bc) = none) ∧
    ((∀ p, vol_get (applyWrites vol_new ws2) p =
        vol_get (applyWrites vol_new ws) p) →
      fingerprint_of (applyWrites vol_new ws2) =
        fingerprint_of (applyWrites vol_new ws)) := by
  have hv := volumeValid_applyWrites ws vol_new volumeValid_vol_new
  have hv2 := volumeValid_applyWrites ws2 vol_new volumeValid_vol_new
  constructor
  · intro hall
    cases hl : lookupS (applyWrites vol_new ws) (encPos bc) with
    | none => rfl
    | some b =>
      obtain ⟨i, c, hbi, hilt, hca⟩ := exists_cell_of_lookup hv hl
      have hB := vol_get_cellPos_some (applyWrites vol_new ws) (encPos bc)
        i hilt hl
      rw [decPos_encPos, hbi] at hB
      have := (hall ⟨i, hilt⟩).symm.trans hB
      exact absurd (congrArg Color.a this).symm hca
  · intro hsame
    rw [vol_ext hv2 hv hsame]

theorem sparseness_canonicality_witness :
    lookupS
        (applyWrites vol_new
          [(⟨0, 0, 0⟩, ⟨255, 0, 0, 255⟩), (⟨0, 0, 0⟩, ⟨0, 0, 0, 0⟩)])
        (encPos ⟨0, 0, 0⟩) = none ∧
      fingerprint_of (applyWrites vol_new ([] : List (Pos × Color))) =
        fingerprint_of
          (applyWrites vol_new
            [(⟨0, 0, 0⟩, ⟨255, 0, 0, 255⟩), (⟨0, 0, 0⟩, ⟨0, 0, 0, 0⟩)]) := by
  have hnil :
      applyWrites vol_new
        [(⟨0, 0, 0⟩, ⟨255, 0, 0, 255⟩), (⟨0, 0, 0⟩, ⟨0, 0, 0, 0⟩)] =
      ([] : Volume) := by decide
  constructor
  · exact (sparseness_canonicality
      [(⟨0, 0, 0⟩, ⟨255, 0, 0, 255⟩), (⟨0, 0, 0⟩, ⟨0, 0, 0, 0⟩)]
      [] ⟨0, 0, 0⟩).1 (fun i => by rw [hnil]; rfl)
  · exact (sparseness_canonicality
      [(⟨0, 0, 0⟩, ⟨255, 0, 0, 255⟩), (⟨0, 0, 0⟩, ⟨0, 0, 0, 0⟩)]
      [] ⟨0, 0, 0⟩).2 (fun p =>
        congrArg (fun v => vol_get v p) hnil.symm)

/-- C6: merge mode correctness on the concrete scenario of section 8:
volume A holds one opaque red voxel at the origin, volume B an opaque
blue voxel at the origin and an opaque green one at (1,0,0); additive
union yields blue and green, paint yields blue only. -/
theorem merge_modes_scenario :
    merge_into (applyWrites vol_new [(⟨0, 0, 0⟩, ⟨255, 0, 0, 255⟩)])
        (applyWrites vol_new
          [(⟨0, 0, 0⟩, ⟨0, 0, 255, 255⟩), (⟨1, 0, 0⟩, ⟨0, 255, 0, 255⟩)])
        id MergeMode.add =
      applyWrites vol_new
        [(⟨0, 0, 0⟩, ⟨0, 0, 255, 255⟩), (⟨1, 0, 0⟩, ⟨0, 255, 0, 255⟩)] ∧
    merge_into (applyWrites vol_new [(⟨0, 0, 0⟩, ⟨255, 0, 0, 255⟩)])
        (applyWrites vol_new
          [(⟨0, 0, 0⟩, ⟨0, 0, 255, 255⟩), (⟨1, 0, 0⟩, ⟨0, 255, 0, 255⟩)])
        id MergeMode.paint =
      applyWrites vol_new [(⟨0, 0, 0⟩, ⟨0, 0, 255, 255⟩)] := by
  constructor
  · decide
  · decide

/-- C7: push creates a new current node whose content is the working
scene, keeps every older node, and truncates the forward chain, leaving
a linear chain whose current node has no forward successor. -/
theorem history_push_spec {S : Type} (img : Image S) :
    image_history_push img =
      ⟨img.scene, img.cur :: img.past, img.scene, []⟩ := rfl

/-- C8: undo with no previous node and redo with no forward node are
no-ops on the document, reported by returning it unchanged rather than
by an error. -/
theorem undo_redo_noop {S : Type} (img : Image S) :
    (img.past = [] → image_undo img = img) ∧
      (img.future = [] → image_redo img = img) := by
  constructor
  · intro h
    unfold image_undo
    rw [h]
  · intro h
    unfold image_redo
    rw [h]

theorem undo_redo_noop_witness :
    image_undo (image_new 5) = image_new 5 ∧
      image_redo (image_new 5) = image_new 5 :=
  ⟨(undo_redo_noop (image_new 5)).1 rfl, (undo_redo_noop (image_new 5)).2 rfl⟩

theorem runEdits_closed {S : Type} (es : List (S → S)) :
    ∀ (c : S) (p : List S),
      runEdits ⟨c, p, c, []⟩ es =
        ⟨endScene c es, pastAfter c es ++ p, endScene c es, []⟩ := by
  induction es with
  | nil => intro c p; rfl
  | cons e t ih =>
    intro c p
    show runEdits ⟨e c, c :: p, e c, []⟩ t = _
    rw [ih (e c) (c :: p)]
    simp [endScene, pastAfter, List.append_assoc]

theorem unwind_snoc {S : Type} (xs : List S) :
    ∀ b y : S,
      unwind b (xs ++ [y]) = (y, (unwind b xs).1 :: (unwind b xs).2) := by
  induction xs with
  | nil => intro b y; rfl
  | cons x xs ih =>
    intro b y
    show ((unwind x (xs ++ [y])).1, (unwind x (xs ++ [y])).2 ++ [b]) = _
    rw [ih x y]
    simp [unwind]

theorem unwind_pastAfter {S : Type} (es : List (S → S)) :
    ∀ c : S, unwind (endScene c es) (pastAfter c es) = (c, scenesList c es) := by
  induction es with
  | nil => intro c; rfl
  | cons e t ih =>
    intro c
    show unwind (endScene (e c) t) (pastAfter (e c) t ++ [c]) = _
    rw [unwind_snoc, ih (e c)]
    rfl

theorem undoN_full {S : Type} (p : List S) :
    ∀ (c : S) (f : List S),
      undoN ⟨c, p, c, f⟩ p.length =
        ⟨(unwind c p).1, [], (unwind c p).1, (unwind c p).2 ++ f⟩ := by
  induction p with
  | nil => intro c f; rfl
  | cons x xs ih =>
    intro c f
    show undoN ⟨x, xs, x, c :: f⟩ xs.length = _
    rw [ih x (c :: f)]
    simp [unwind, List.append_assoc]

theorem redoTrace_full {S : Type} (key : S → Nat) (fs : List S) :
    ∀ (b : S) (p : List S),
      redoTrace key ⟨b, p, b, fs⟩ fs.length = fs.map key := by
  induction fs with
  | nil => intro b p; rfl
  | cons x xs ih =>
    intro b p
    show key x :: redoTrace key ⟨x, b :: p, x, xs⟩ xs.length =
      key x :: xs.map key
    rw [ih x (b :: p)]

theorem forwardObs_scenes {S : Type} (key : S → Nat) (es : List (S → S)) :
    ∀ img : Image S,
      forwardObs key img es = (scenesList img.scene es).map key := by
  induction es with
  | nil => intro img; rfl
  | cons e t ih =>
    intro img
    show key (e img.scene) :: forwardObs key (editPush img e) t =
      key (e img.scene) :: (scenesList (e img.scene) t).map key
    rw [ih (editPush img e)]
    rfl

theorem pastAfter_length {S : Type} (es : List (S → S)) :
    ∀ c : S, (pastAfter c es).length = es.length := by
  induction es with
  | nil => intro c; rfl
  | cons e t ih => intro c; simp [pastAfter, ih (e c)]

theorem scenesList_length {S : Type} (es : List (S → S)) :
    ∀ c : S, (scenesList c es).length = es.length := by
  induction es with
  | nil => intro c; rfl
  | cons e t ih => intro c; simp [scenesList, ih (e c)]

/-- C1: starting from a fresh document, running any sequence of edits
with a push after each, then undoing that many times and redoing that
many times, reproduces exactly the scene fingerprint sequence observed
on the forward pass. -/
theorem history_reversibility {S : Type} (key : S → Nat) (s0 : S)
    (edits : List (S → S)) :
    redoTrace key
        (undoN (runEdits (image_new s0) edits) edits.length) edits.length =
      forwardObs key (image_new s0) edits := by
  rw [show image_new s0 = (⟨s0, [], s0, []⟩ : Image S) from rfl,
    runEdits_closed edits s0 [], List.append_nil]
  rw [show edits.length = (pastAfter s0 edits).length from
    (pastAfter_length edits s0).symm]
  rw [undoN_full (pastAfter s0 edits) (endScene s0 edits) [],
    unwind_pastAfter edits s0, List.append_nil]
  rw [show (pastAfter s0 edits).length = (scenesList s0 edits).length from by
    rw [pastAfter_length, scenesList_length]]
  rw [redoTrace_full key (scenesList s0 edits) s0 [],
    forwardObs_scenes key edits ⟨s0, [], s0, []⟩]

theorem refsIn_pos_of_mem {v : HVol} {k i : Nat} (h : (k, i) ∈ v) :
    1 ≤ refsIn v i := by
  induction v with
  | nil => cases h
  | cons e t ih =>
    rcases List.mem_cons.mp h with h1 | h1
    · rw [refsIn, if_pos (show e.2 = i by rw [← h1])]
      omega
    · have := ih h1
      rw [refsIn]
      split <;> omega

theorem refsIn_eraseS {v : HVol} {k i : Nat} (hl : lookupS v k = some i) :
    ∀ j, refsIn (eraseS v k) j + (if i = j then 1 else 0) = refsIn v j := by
  induction v with
  | nil => cases hl
  | cons e t ih =>
    intro j
    by_cases hk : k = e.1
    · rw [lookupS_cons, if_pos hk] at hl
      injection hl with hl2
      simp only [eraseS, if_pos hk, refsIn, hl2]
      exact Nat.add_comm _ _
    · rw [lookupS_cons, if_neg hk] at hl
      simp only [eraseS, if_neg hk, refsIn]
      have h2 := ih hl j
      by_cases he : e.2 = j
      · rw [if_pos he]
        by_cases hij : i = j
        · rw [if_pos hij] at h2 ⊢
          omega
        · rw [if_neg hij] at h2 ⊢
          omega
      · rw [if_neg he]
        by_cases hij : i = j
        · rw [if_pos hij] at h2 ⊢
          omega
        · rw [if_neg hij] at h2 ⊢
          omega

theorem keys_eraseS_ne {ν : Type} {v : SMap ν} (hnd : NoDupKeys v) (k : Nat) :
    ∀ e ∈ eraseS v k, e.1 ≠ k := by
  have h := lookupS_eraseS hnd k k
  rw [if_pos rfl] at h
  exact forall_ne_of_lookupS_eq_none h

theorem noDupKeys_eraseS {ν : Type} {v : SMap ν} (hnd : NoDupKeys v)
    (k : Nat) : NoDupKeys (eraseS v k) :=
  List.Pairwise.sublist (eraseS_sublist v k) hnd

theorem hWrite_inv {frozen : Store} {S : HVol} {st : Store} {A : HVol}
    (h : HInv frozen S st A) (p : Pos) (c : Color) :
    HInv frozen S (hWrite st A p c).1 (hWrite st A p c).2 := by
  have hj1 : refsIn A st.nextId = 0 := by
    by_contra hne
    exact absurd (h.fresh _ (Or.inl hne)) (lt_irrefl _)
  have hj2 : refsIn S st.nextId = 0 := by
    by_contra hne
    exact absurd (h.fresh _ (Or.inr (Or.inl hne))) (lt_irrefl _)
  have hj3 : st.refc st.nextId = 0 := by
    by_contra hne
    exact absurd (h.fresh _ (Or.inr (Or.inr hne))) (lt_irrefl _)
  cases hl : lookupS A (encPos (blockOf p)) with
  | none =>
    by_cases hc : c.a = 0
    · simp only [hWrite, hl, if_pos hc]
      exact h
    · simp only [hWrite, hl, if_neg hc]
      have hknotin := forall_ne_of_lookupS_eq_none hl
      refine ⟨?_, ?_, ?_, ?_⟩
      · intro id
        have hcnt := h.counts id
        rw [refsIn]
        dsimp only
        rw [Function.update_apply]
        by_cases hid : id = st.nextId
        · subst hid
          rw [if_pos rfl, if_pos rfl]
          omega
        · rw [if_neg hid, if_neg (fun hh => hid hh.symm)]
          omega
      · intro id hS
        dsimp only
        have hidj : id ≠ st.nextId := fun hh => hS (hh ▸ hj2)
        rw [Function.update_noteq hidj]
        exact h.frozenS id hS
      · intro id hor
        rw [refsIn] at hor
        dsimp only at hor ⊢
        rw [Function.update_apply] at hor
        by_cases hid : id = st.nextId
        · omega
        · rw [if_neg (fun hh => hid hh.symm), if_neg hid] at hor
          have := h.fresh id (by omega)
          omega
      · exact List.pairwise_cons.mpr
          ⟨fun e he hh => hknotin e he hh.symm, h.nodup⟩
  | some i =>
    have hmem := lookupS_some_mem hl
    have hge1 : 1 ≤ refsIn A i := refsIn_pos_of_mem hmem
    have herase := refsIn_eraseS hl
    by_cases hemp : bdEmptyB (Function.update (st.blocks i) (cellIdx p) c)
    · simp only [hWrite, hl, if_pos hemp]
      refine ⟨?_, h.frozenS, ?_, noDupKeys_eraseS h.nodup _⟩
      · intro id
        have hcnt := h.counts id
        have he := herase id
        dsimp only
        rw [Function.update_apply]
        by_cases hid : id = i
        · subst hid
          rw [if_pos rfl] at he ⊢
          omega
        · rw [if_neg hid]
          rw [if_neg (fun hh => hid hh.symm)] at he
          omega
      · intro id hor
        have he := herase id
        refine h.fresh id ?_
        dsimp only at hor
        rw [Function.update_apply] at hor
        by_cases hid : id = i
        · subst hid
          rw [if_pos rfl] at hor he
          rcases hor with h1 | h1 | h1
          · left; omega
          · right; left; exact h1
          · right; right; omega
        · rw [if_neg hid] at hor
          rw [if_neg (fun hh => hid hh.symm)] at he
          rcases hor with h1 | h1 | h1
          · left; omega
          · right; left; exact h1
          · right; right; exact h1
    · by_cases hsh : 2 ≤ st.refc i
      · simp only [hWrite, hl, if_neg hemp, if_pos hsh]
        have hilt : i < st.nextId :=
          h.fresh i (Or.inr (Or.inr (by omega)))
        have hij : i ≠ st.nextId := by omega
        refine ⟨?_, ?_, ?_, ?_⟩
        · intro id
          have hcnt := h.counts id
          have he := herase id
          rw [refsIn]
          dsimp only
          rw [Function.update_apply]
          by_cases hidj : id = st.nextId
          · subst hidj
            rw [if_neg hij] at he
            rw [if_pos rfl, if_pos rfl]
            omega
          · rw [if_neg hidj, if_neg (fun hh => hidj hh.symm),
              Function.update_apply]
            by_cases hid : id = i
            · subst hid
              rw [if_pos rfl] at he ⊢
              omega
            · rw [if_neg hid]
              rw [if_neg (fun hh => hid hh.symm)] at he
              omega
        · intro id hS
          dsimp only
          have hidj : id ≠ st.nextId := fun hh => hS (hh ▸ hj2)
          rw [Function.update_noteq hidj]
          exact h.frozenS id hS
        · intro id hor
          have he := herase id
          rw [refsIn] at hor
          dsimp only at hor ⊢
          by_cases hidj : id = st.nextId
          · omega
          · have hlt : id < st.nextId := by
              refine h.fresh id ?_
              rw [Function.update_apply, Function.update_apply] at hor
              rw [if_neg (fun hh => hidj hh.symm), if_neg hidj] at hor
              by_cases hid : id = i
              · subst hid
                rw [if_pos rfl] at hor he
                rcases hor with h1 | h1 | h1
                · left; omega
                · right; left; exact h1
                · right; right; omega
              · rw [if_neg hid] at hor
                rw [if_neg (fun hh => hid hh.symm)] at he
                rcases hor with h1 | h1 | h1
                · left; omega
                · right; left; exact h1
                · right; right; exact h1
            omega
        · exact List.pairwise_cons.mpr
            ⟨fun e he hh => keys_eraseS_ne h.nodup _ e he hh.symm,
             noDupKeys_eraseS h.nodup _⟩
      · simp only [hWrite, hl, if_neg hemp, if_neg hsh]
        have hS0 : refsIn S i = 0 := by
          have := h.counts i
          omega
        refine ⟨h.counts, ?_, h.fresh, h.nodup⟩
        intro id hS
        dsimp only
        have hid : id ≠ i := fun hh => hS (hh ▸ hS0)
        rw [Function.update_noteq hid]
        exact h.frozenS id hS

theorem applyH_inv (frozen : Store) (S : HVol) (ws : List (Pos × Color)) :
    ∀ (st : Store) (A : HVol), HInv frozen S st A →
      HInv frozen S (applyH st A ws).1 (applyH st A ws).2 := by
  induction ws with
  | nil => intro st A h; exact h
  | cons w t ih => intro st A h; exact ih _ _ (hWrite_inv h w.1 w.2)

theorem hInv_init : HInv initStore [] initStore [] := by
  refine ⟨?_, ?_, ?_, List.Pairwise.nil⟩
  · intro id
    simp [refsIn, initStore]
  · intro id h0
    exact absurd rfl h0
  · intro id hor
    rcases hor with h1 | h1 | h1
    · exact absurd rfl h1
    · exact absurd rfl h1
    · exact absurd rfl h1

theorem hInv_after_snap {st : Store} {A : HVol}
    (h : HInv initStore [] st A) :
    HInv (snapStore st A) A (snapStore st A) A := by
  refine ⟨?_, fun id _ => rfl, ?_, h.nodup⟩
  · intro id
    have hc := h.counts id
    rw [refsIn] at hc
    show refsIn A id + refsIn A id ≤ st.refc id + refsIn A id
    omega
  · intro id hor
    refine h.fresh id ?_
    rcases hor with h1 | h1 | h1
    · left; exact h1
    · left; exact h1
    · show refsIn A id ≠ 0 ∨ refsIn ([] : HVol) id ≠ 0 ∨ st.refc id ≠ 0
      have h2 : st.refc id + refsIn A id ≠ 0 := h1
      by_cases h3 : refsIn A id = 0
      · right; right; omega
      · left; exact h3

theorem readH_frozen {frozen st : Store} {S A : HVol}
    (h : HInv frozen S st A) (p : Pos) : readH st S p = readH frozen S p := by
  unfold readH
  cases hl : lookupS S (encPos (blockOf p)) with
  | none => rfl
  | some i =>
    have hmem := lookupS_some_mem hl
    have hpos := refsIn_pos_of_mem hmem
    dsimp only
    rw [h.frozenS i (by omega)]

/-- C3: build a volume by any write sequence, snapshot it by sharing its
blocks, then apply any further writes to the live volume; reading the
snapshot at any position still returns the pre-mutation color. -/
theorem cow_isolation (ws0 ws1 : List (Pos × Color)) (p : Pos) :
    readH (applyH (snappedStore ws0) (buildA ws0).2 ws1).1 (buildA ws0).2 p =
      readH (snappedStore ws0) (buildA ws0).2 p := by
  have h0 : HInv initStore [] (buildA ws0).1 (buildA ws0).2 :=
    applyH_inv initStore [] ws0 initStore [] hInv_init
  have h1 : HInv (snappedStore ws0) (buildA ws0).2 (snappedStore ws0)
      (buildA ws0).2 := hInv_after_snap h0
  have h2 := applyH_inv (snappedStore ws0) (buildA ws0).2 ws1 _ _ h1
  exact readH_frozen h2 p

/-- C5: an out-of-range write is rejected with an error and the caller
keeps the pre-operation store and volume; an allocation failure while a
shared block (reference count at least two) must be cloned aborts with
an error and the pre-operation store and volume intact. -/
theorem write_failure_atomic (st : Store) (v : HVol) (p : Pos) (c : Color)
    (alloc : Bool) (i : Nat) :
    (¬ inRange p →
      hWriteE alloc st v p c = .error .outOfRange ∧
        hWriteTotal alloc st v p c = (st, v)) ∧
    (inRange p → lookupS v (encPos (blockOf p)) = some i →
      bdEmptyB (Function.update (st.blocks i) (cellIdx p) c) = false →
      2 ≤ st.refc i →
      hWriteE false st v p c = .error .allocFailed ∧
        hWriteTotal false st v p c = (st, v)) := by
  constructor
  · intro hr
    have h1 : hWriteE alloc st v p c = .error .outOfRange := by
      simp only [hWriteE, if_neg hr]
    exact ⟨h1, by simp only [hWriteTotal, h1]⟩
  · intro hr hl hemp hsh
    have h1 : hWriteE false st v p c = .error .allocFailed := by
      simp [hWriteE, hr, hl, hemp, hsh]
    exact ⟨h1, by simp only [hWriteTotal, h1]⟩

set_option maxRecDepth 10000 in
theorem write_failure_atomic_witness :
    (hWriteE true
        ⟨fun _ => Function.update emptyBD 0 ⟨255, 0, 0, 255⟩,
         fun id => if id = 0 then 2 else 0, 1⟩
        [(encPos ⟨0, 0, 0⟩, 0)] ⟨2 ^ 31, 0, 0⟩ ⟨0, 0, 255, 255⟩ =
      .error .outOfRange) ∧
    (hWriteE false
        ⟨fun _ => Function.update emptyBD 0 ⟨255, 0, 0, 255⟩,
         fun id => if id = 0 then 2 else 0, 1⟩
        [(encPos ⟨0, 0, 0⟩, 0)] ⟨0, 0, 0⟩ ⟨0, 0, 255, 255⟩ =
      .error .allocFailed) := by
  constructor
  · exact ((write_failure_atomic
      ⟨fun _ => Function.update emptyBD 0 ⟨255, 0, 0, 255⟩,
       fun id => if id = 0 then 2 else 0, 1⟩
      [(encPos ⟨0, 0, 0⟩, 0)] ⟨2 ^ 31, 0, 0⟩ ⟨0, 0, 255, 255⟩ true 0).1
      (by decide)).1
  · exact ((write_failure_atomic
      ⟨fun _ => Function.update emptyBD 0 ⟨255, 0, 0, 255⟩,
       fun id => if id = 0 then 2 else 0, 1⟩
      [(encPos ⟨0, 0, 0⟩, 0)] ⟨0, 0, 0⟩ ⟨0, 0, 255, 255⟩ false 0).2
      (by decide) (by decide) (by decide) (by decide)).1

theorem camOfNat_obs_inj {n1 n2 : Nat} (hb1 : n1 < 2 ^ 96)
    (hb2 : n2 < 2 ^ 96) (h : obsEq (camOfNat n1) (camOfNat n2)) :
    n1 = n2 := by
  obtain ⟨_, _, hd, hr0, hr1, _⟩ := h
  have hd' : n1 % 2 ^ 32 = n2 % 2 ^ 32 := congrArg Fin.val hd
  have hr0' : n1 / 2 ^ 32 % 2 ^ 32 = n2 / 2 ^ 32 % 2 ^ 32 :=
    congrArg Fin.val hr0
  have hr1' : n1 / 2 ^ 32 / 2 ^ 32 % 2 ^ 32 = n2 / 2 ^ 32 / 2 ^ 32 % 2 ^ 32 :=
    congrArg Fin.val hr1
  omega

/-- C4 counterexample: no 64-bit key assignment on cameras can satisfy
the claimed equivalence (equal keys exactly on identical observable
content): there are more observable camera contents than 64-bit values,
so some two cameras with different observable content share a key. -/
theorem camera_key_iff_impossible :
    ¬ ∃ f : Camera → Fin (2 ^ 64),
      ∀ c1 c2 : Camera, f c1 = f c2 ↔ obsEq c1 c2 := by
  rintro ⟨f, hf⟩
  have hinj : Function.Injective
      (fun k : Fin (2 ^ 96) => f (camOfNat k.val)) := by
    intro k1 k2 heq
    exact Fin.ext (camOfNat_obs_inj k1.isLt k2.isLt ((hf _ _).mp heq))
  have hcard := Fintype.card_le_of_injective _ hinj
  simp only [Fintype.card_fin] at hcard
  omega

/-- C4 amended: camera_get_key is a deterministic function of the
observable camera content and ignores the cached matrices; equal
observable content gives equal keys (the converse cannot hold for a
64-bit key, collisions being disregarded). -/
theorem camera_key_content_determined (c1 c2 : Camera) (h : obsEq c1 c2) :
    camera_get_key c1 = camera_get_key c2 := by
  obtain ⟨hn, ho, hd, hr0, hr1, hr2, hr3, ho0, ho1, ho2, hfv, ha⟩ := h
  unfold camera_get_key
  rw [hn, ho, hd, hr0, hr1, hr2, hr3, ho0, ho1, ho2, hfv, ha]

theorem camera_key_content_determined_witness :
    camera_get_key (camOfNat 7) =
      camera_get_key
        { camOfNat 7 with view_mat := [⟨1, by norm_num⟩] } :=
  camera_key_content_determined (camOfNat 7)
    { camOfNat 7 with view_mat := [⟨1, by norm_num⟩] }
    ⟨rfl, rfl, rfl, rfl, rfl, rfl, rfl, rfl, rfl, rfl, rfl, rfl⟩

end Goxel